import Mathlib

/-!
Verification development for the patternhunt library (Rust).

The definitions below are a shallow embedding of the library's source:
pure Rust functions become Lean functions, the filesystem walkers become
functions over an explicit filesystem value, and the stat/compilation
caches become explicit state passing.  External engines (the `globset`
and `regex` crates) are abstracted as oracle function parameters where a
claim does not depend on their internals.  All definitions are
executable (structural recursion only), so concrete runs can be settled
by `decide`/`rfl`.

Conventions:
* Rust `Vec<String>`/`&str` become `List String`/`String`; byte indices
  of `char_indices` become character positions (both cut the same
  character boundaries).
* Rust `usize`/`u64` counters that never overflow in the modelled code
  become `Nat`; `i64` values carry explicit range checks where the code
  parses them.
* Recursions whose Rust termination argument is "the string shrinks" or
  "the stack measure shrinks" carry an explicit fuel parameter that is
  sized generously; the fuel-exhausted branch is marked and unreachable
  for every input considered in the theorems.
-/

/-! ## String utilities (models of `str` methods used by the source) -/

/-- `listPre needle hay`: is `needle` a prefix of `hay` (by characters)? -/
def listPre : List Char → List Char → Bool
  | [], _ => true
  | _ :: _, [] => false
  | a :: as, b :: bs => a = b && listPre as bs

/-- `listSub needle hay`: does `needle` occur as a contiguous infix of `hay`? -/
def listSub : List Char → List Char → Bool
  | n, [] => n.isEmpty
  | n, h :: hs => listPre n (h :: hs) || listSub n hs

/-- Model of Rust `str::contains(&str)`: substring occurrence. -/
def strContains (s sub : String) : Bool := listSub sub.toList s.toList

/-- Model of Rust `str::contains(char)`. -/
def hasChar (s : String) (c : Char) : Bool := s.toList.any (fun x => x = c)

/-- Number of occurrences of a character, model of `s.matches(c).count()`. -/
def countChar (s : String) (c : Char) : Nat := (s.toList.filter (fun x => x = c)).length

/-- ASCII whitespace test (Rust `trim` removes Unicode whitespace; all
patterns in the claims are ASCII, where the two agree). -/
def isWsp (c : Char) : Bool := c = ' ' || c = '\t' || c = '\n' || c = '\r'

/-- Model of Rust `str::trim`. -/
def trimStr (s : String) : String :=
  String.mk (((s.toList.dropWhile isWsp).reverse.dropWhile isWsp).reverse)

/-- Model of `str::strip_prefix("re:")`. -/
def stripRe (s : String) : Option String :=
  match s.toList with
  | 'r' :: 'e' :: ':' :: rest => some (String.mk rest)
  | _ => none

/-- Splits a character list at every occurrence of a separator character
(model of Rust `str::split(char)`, which always yields at least one piece). -/
def splitChar (sep : Char) : List Char → List Char → List String
  | [], buf => [String.mk buf.reverse]
  | c :: rest, buf =>
    if c = sep then String.mk buf.reverse :: splitChar sep rest []
    else splitChar sep rest (c :: buf)

/-- Splits a character list at every occurrence of `".."`
(model of Rust `str::split("..")`, greedy left-to-right). -/
def splitDotDot : List Char → List Char → List String
  | [], buf => [String.mk buf.reverse]
  | '.' :: '.' :: rest, buf => String.mk buf.reverse :: splitDotDot rest []
  | c :: rest, buf => splitDotDot rest (c :: buf)

/-- Path components of a `/`-joined path string. -/
def pathComps (s : String) : List String := splitChar '/' s.toList []

/-- Component-list prefix test. -/
def compsPre : List String → List String → Bool
  | [], _ => true
  | _ :: _, [] => false
  | a :: as, b :: bs => a = b && compsPre as bs

/-- Model of `Path::starts_with`: component-wise prefix. -/
def pathStarts (p root : String) : Bool := compsPre (pathComps root) (pathComps p)

/-- Model of Rust `"-123".parse::<i64>()`: optional sign, one or more
ASCII digits, value within the `i64` range. -/
def parseI64 (s : String) : Option Int :=
  let go : List Char → Option Int := fun ds =>
    if ds.isEmpty || !(ds.all Char.isDigit) then none
    else some (ds.foldl (fun acc c => acc * 10 + (c.toNat - '0'.toNat)) (0 : Int))
  match s.toList with
  | '+' :: rest =>
    match go rest with
    | some v => if v ≤ 2 ^ 63 - 1 then some v else none
    | none => none
  | '-' :: rest =>
    match go rest with
    | some v => if v ≤ 2 ^ 63 then some (-v) else none
    | none => none
  | rest =>
    match go rest with
    | some v => if v ≤ 2 ^ 63 - 1 then some v else none
    | none => none

/-- The strings of the inclusive integer range `a..=b` (empty when `a > b`),
model of `for v in a..=b { v.to_string() }`. -/
def rangeStrings (a b : Int) : List String :=
  if a ≤ b then (List.range ((b - a).toNat + 1)).map (fun i => toString (a + i))
  else []

/-- Decidable equality for `Except` values (used to settle concrete runs). -/
instance {ε α : Type} [DecidableEq ε] [DecidableEq α] : DecidableEq (Except ε α) := fun x y =>
  match x, y with
  | .ok a, .ok b =>
    if h : a = b then isTrue (by rw [h]) else isFalse (by intro hc; cases hc; exact h rfl)
  | .error a, .error b =>
    if h : a = b then isTrue (by rw [h]) else isFalse (by intro hc; cases hc; exact h rfl)
  | .ok _, .error _ => isFalse (by intro hc; cases hc)
  | .error _, .ok _ => isFalse (by intro hc; cases hc)

/-! ## Error taxonomy (src/error.rs, `GlobError`) -/

/-- All error kinds of `GlobError`.  Payloads that are external error
objects (`io::Error`, `regex::Error`, `walkdir::Error`) are dropped;
string messages are kept. -/
inductive GlobError where
  | io
  | regex
  | invalidPattern (msg : String)
  | walkdir
  | other (msg : String)
  | braceExpansionDepth
  | braceExpansionCount
  | regexTooComplex
  | pathTraversal
  | symlinkCycle
  | timeout
  | permissionDenied
deriving DecidableEq, Repr

/-! ## Brace expansion (src/patterns/brace.rs)

`expand` is recursive on strings; in Rust it terminates because every
recursive call receives a strictly shorter string and the depth counter
is capped at `MAX_DEPTH = 10`.  The Lean model uses one function `brGo`
over a call type, structurally recursive on a generous fuel value; the
fuel-exhausted branch returns `.error (.other "recursion limit")`, an
error the Rust code never produces, and is unreachable for the inputs
appearing in any theorem below. -/

/-- `find_brace`: position of the first balanced top-level `{...}` pair
(character positions). -/
def findBraceAux : List Char → Nat → Nat → Option Nat → Option (Nat × Nat)
  | [], _, _, _ => none
  | c :: rest, i, depth, start =>
    if c = '\x7b' then
      findBraceAux rest (i + 1) (depth + 1) (if depth = 0 then some i else start)
    else if c = '\x7d' then
      if depth = 0 then none
      else if depth = 1 then
        match start with
        | some st => some (st, i)
        | none => none
      else findBraceAux rest (i + 1) (depth - 1) start
    else findBraceAux rest (i + 1) depth start

/-- Entry point for `find_brace`. -/
def findBrace (cs : List Char) : Option (Nat × Nat) := findBraceAux cs 0 0 none

/-- Splits a brace body at top-level commas.  Mirrors the Rust loop: the
running buffer is pushed at each top-level comma, and at the end only
when non-empty — so a trailing empty alternative is dropped. -/
def splitItemsAux : List Char → Nat → List Char → List String
  | [], _, buf => if buf.isEmpty then [] else [String.mk buf.reverse]
  | c :: rest, d, buf =>
    if c = ',' && d = 0 then String.mk buf.reverse :: splitItemsAux rest d []
    else
      let d' := if c = '\x7b' then d + 1 else if c = '\x7d' then d - 1 else d
      splitItemsAux rest d' (c :: buf)

/-- `parse_range`: `"a..b"` with both parts `i64` integers. -/
def parse_range (s : String) : Option (Int × Int) :=
  match splitDotDot s.toList [] with
  | [a, b] =>
    match parseI64 a, parseI64 b with
    | some va, some vb => some (va, vb)
    | _, _ => none
  | _ => none

/-- The innermost push loop of `expand_inner`: appends
`before ++ mid ++ suf` for each suffix, failing with
`BraceExpansionCount` as soon as the accumulator exceeds 1000. -/
def pushAll (before mid : String) : List String → List String → Except GlobError (List String)
  | [], acc => .ok acc
  | suf :: rest, acc =>
    let acc' := acc ++ [before ++ mid ++ suf]
    if acc'.length > 1000 then .error .braceExpansionCount
    else pushAll before mid rest acc'

/-- Call descriptor for the mutually recursive loops of `expand_inner`. -/
inductive BrCall where
  | inner (input : String) (depth : Nat)
  | items (before after : String) (depth : Nat) (its : List String) (acc : List String)
  | mids (before after : String) (depth : Nat) (ms : List String) (acc : List String)

/-- One-function form of `expand_inner` and its two nested loops.
`gas` only bounds the recursion (see the section comment). -/
def brGo : Nat → BrCall → Except GlobError (List String)
  | 0, _ => .error (.other "recursion limit")
  | g + 1, .inner input depth =>
    if depth > 10 then .error .braceExpansionDepth
    else
      match findBrace input.toList with
      | none => .ok [input]
      | some (st, en) =>
        let cs := input.toList
        let before := String.mk (cs.take st)
        let inner := String.mk ((cs.drop (st + 1)).take (en - st - 1))
        let after := String.mk (cs.drop (en + 1))
        if depth + 1 > 10 then .error .braceExpansionDepth
        else
          let items := splitItemsAux inner.toList 0 []
          let expItems := items.flatMap (fun it =>
            match parse_range it with
            | some (a, b) => rangeStrings a b
            | none => [it])
          brGo g (.items before after depth expItems [])
  | _ + 1, .items _ _ _ [] acc => .ok acc
  | g + 1, .items before after depth (it :: rest) acc =>
    match brGo g (.inner it (depth + 1)) with
    | .error e => .error e
    | .ok ms =>
      match brGo g (.mids before after depth ms acc) with
      | .error e => .error e
      | .ok acc' => brGo g (.items before after depth rest acc')
  | _ + 1, .mids _ _ _ [] acc => .ok acc
  | g + 1, .mids before after depth (mid :: rest) acc =>
    match brGo g (.inner after (depth + 1)) with
    | .error e => .error e
    | .ok sufs =>
      match pushAll before mid sufs acc with
      | .error e => .error e
      | .ok acc' => brGo g (.mids before after depth rest acc')

/-- `brace::expand`: brace expansion with depth cap 10 and output cap 1000. -/
def expand (input : String) : Except GlobError (List String) :=
  brGo 1000000 (.inner input 0)

/-- Modelled from the spec: the cardinality of the unrestricted
cross-product of brace expansions ("the cross-product of expansions"),
with neither the depth cap nor the 1000-element cap.  This definition
follows the spec's wording and exists only to state the cardinality
hypothesis of the output-cap claim; the fuel parameter only bounds the
recursion and is ample for every input considered. -/
def freeCountGo : Nat → String → Nat
  | 0, _ => 1
  | g + 1, input =>
    match findBrace input.toList with
    | none => 1
    | some (st, en) =>
      let cs := input.toList
      let inner := String.mk ((cs.drop (st + 1)).take (en - st - 1))
      let after := String.mk (cs.drop (en + 1))
      let items := splitItemsAux inner.toList 0 []
      let expItems := items.flatMap (fun it =>
        match parse_range it with
        | some (a, b) => rangeStrings a b
        | none => [it])
      expItems.foldl (fun acc it => acc + freeCountGo g it * freeCountGo g after) 0

/-- Entry point of the spec-side cross-product cardinality. -/
def freeCount (input : String) : Nat := freeCountGo 30 input

/-! ## Micromatch translator (src/patterns/micromatch.rs)

`micromatch_to_regex` recurses through `process_extglob` on strictly
shorter strings; the Lean model uses one function `mmGo` over a call
type, structurally recursive on a fuel value sized from the pattern
length, with an unreachable fuel-exhausted branch. -/

/-- Token kinds of the pattern tokenizer. -/
inductive Token where
  | char (c : Char)
  | escaped (c : Char)
  | openParen
  | closeParen
  | pipe
  | openBracket
  | closeBracket
  | openBrace
  | closeBrace
  | question
  | star
  | plus
  | at
  | exclamation
  | comma
  | dot
  | caret
  | dollar
  | minus
deriving DecidableEq, Repr

/-- `tokenize`: classifies each character, pairing a backslash with the
following character (a trailing backslash becomes a literal one). -/
def tokenize : List Char → List Token
  | [] => []
  | '\\' :: [] => [Token.char '\\']
  | '\\' :: c :: rest => Token.escaped c :: tokenize rest
  | '(' :: rest => Token.openParen :: tokenize rest
  | ')' :: rest => Token.closeParen :: tokenize rest
  | '|' :: rest => Token.pipe :: tokenize rest
  | '[' :: rest => Token.openBracket :: tokenize rest
  | ']' :: rest => Token.closeBracket :: tokenize rest
  | '\x7b' :: rest => Token.openBrace :: tokenize rest
  | '\x7d' :: rest => Token.closeBrace :: tokenize rest
  | '?' :: rest => Token.question :: tokenize rest
  | '*' :: rest => Token.star :: tokenize rest
  | '+' :: rest => Token.plus :: tokenize rest
  | '@' :: rest => Token.at :: tokenize rest
  | '!' :: rest => Token.exclamation :: tokenize rest
  | ',' :: rest => Token.comma :: tokenize rest
  | '.' :: rest => Token.dot :: tokenize rest
  | '^' :: rest => Token.caret :: tokenize rest
  | '$' :: rest => Token.dollar :: tokenize rest
  | '-' :: rest => Token.minus :: tokenize rest
  | c :: rest => Token.char c :: tokenize rest

/-- `regex_escape_char`: backslash-escapes regex metacharacters. -/
def regex_escape_char (c : Char) : String :=
  if c = '.' || c = '+' || c = '?' || c = '*' || c = '(' || c = ')' || c = '[' || c = ']' ||
     c = '\x7b' || c = '\x7d' || c = '^' || c = '$' || c = '|' || c = '\\' then
    String.mk ['\\', c]
  else String.mk [c]

/-- Text of a single token (the per-token body of `tokens_to_string`). -/
def tokenStr : Token → String
  | .char c => String.mk [c]
  | .escaped c => String.mk ['\\', c]
  | .openParen => "("
  | .closeParen => ")"
  | .pipe => "|"
  | .openBracket => "["
  | .closeBracket => "]"
  | .openBrace => "\x7b"
  | .closeBrace => "\x7d"
  | .question => "?"
  | .star => "*"
  | .plus => "+"
  | .at => "@"
  | .exclamation => "!"
  | .comma => ","
  | .dot => "."
  | .caret => "^"
  | .dollar => "$"
  | .minus => "-"

/-- `tokens_to_string`. -/
def tokens_to_string : List Token → String
  | [] => ""
  | t :: rest => tokenStr t ++ tokens_to_string rest

/-- `collect_until_balanced`, called with depth 1: returns the collected
tokens (closing delimiter excluded) and the unconsumed remainder, or
`InvalidPattern` when the input ends unbalanced. -/
def collectBal (startT stopT : Token) : List Token → Nat → List Token →
    Except GlobError (List Token × List Token)
  | [], _, _ => .error (.invalidPattern "unbalanced parentheses in extglob")
  | t :: rest, depth, acc =>
    if t = startT then collectBal startT stopT rest (depth + 1) (acc ++ [t])
    else if t = stopT then
      if depth = 1 then .ok (acc, rest)
      else collectBal startT stopT rest (depth - 1) (acc ++ [t])
    else collectBal startT stopT rest depth (acc ++ [t])

/-- The alternative-splitting loop of `process_extglob`: splits at pipes
that sit at parenthesis depth 0 (the Rust depth counter is a signed
integer).  A trailing empty alternative is dropped (`!current.is_empty()`). -/
def splitPipes : List Token → Int → List Token → List (List Token) → List (List Token)
  | [], _, current, alts => if current.isEmpty then alts else alts ++ [current]
  | t :: rest, depth, current, alts =>
    let depth' := if t = Token.openParen then depth + 1
                  else if t = Token.closeParen then depth - 1 else depth
    if t = Token.pipe && depth' = 0 then splitPipes rest depth' [] (alts ++ [current])
    else splitPipes rest depth' (current ++ [t]) alts

/-- Removes every leading `^` (model of `trim_start_matches('^')`). -/
def dropLeadCaret (s : String) : String := String.mk (s.toList.dropWhile (fun c => c = '^'))

/-- Removes every trailing `$` (model of `trim_end_matches('$')`). -/
def dropTrailDollar (s : String) : String :=
  String.mk ((s.toList.reverse.dropWhile (fun c => c = '$')).reverse)

/-- Body of `process_character_class` after the leading-`!` check. -/
def classChunks : List Token → String
  | [] => ""
  | .char c :: rest => String.mk [c] ++ classChunks rest
  | .escaped c :: rest => String.mk ['\\', c] ++ classChunks rest
  | .dot :: rest => "." ++ classChunks rest
  | .minus :: rest => "-" ++ classChunks rest
  | t :: rest => tokenStr t ++ classChunks rest

/-- `process_character_class`: a leading `!` negates; everything else is
emitted into the bracket expression.  (The Rust function returns
`Result` but never fails.) -/
def process_character_class : List Token → String
  | .exclamation :: rest => "[^" ++ classChunks rest ++ "]"
  | ts => "[" ++ classChunks ts ++ "]"

/-- Is a token one of the five extglob operators? -/
def isExtOp (t : Token) : Bool :=
  t = Token.question || t = Token.star || t = Token.plus || t = Token.at || t = Token.exclamation

/-- Call descriptor for the mutual recursion of `micromatch_to_regex`:
`top` is the public entry, `loop` the main token loop, `ext` is
`process_extglob`, `alts` its alternative-translation loop (anchors
stripped), and `braceAlts` the `{A,B}` alternative loop (anchors kept). -/
inductive MmCall where
  | top (pat : String)
  | loop (ts : List Token)
  | ext (inner : List Token) (op : Token)
  | alts (as_ : List (List Token))
  | braceAlts (ss : List String)

/-- One-function form of `micromatch_to_regex`, `process_extglob` and
their loops.  `gas` only bounds the recursion. -/
def mmGo : Nat → MmCall → Except GlobError String
  | 0, _ => .error (.other "recursion limit")
  | g + 1, .top pat =>
    match stripRe pat with
    | some rest => .ok rest
    | none =>
      match mmGo g (.loop (tokenize pat.toList)) with
      | .error e => .error e
      | .ok body => .ok ("^" ++ body ++ "$")
  | _ + 1, .loop [] => .ok ""
  | g + 1, .loop (Token.question :: rest) =>
    match mmGo g (.loop rest) with
    | .error e => .error e
    | .ok s => .ok ("." ++ s)
  | g + 1, .loop (Token.star :: rest) =>
    match mmGo g (.loop rest) with
    | .error e => .error e
    | .ok s => .ok (".*" ++ s)
  | g + 1, .loop (Token.plus :: rest) =>
    match mmGo g (.loop rest) with
    | .error e => .error e
    | .ok s => .ok (".+" ++ s)
  | g + 1, .loop (Token.at :: Token.openParen :: rest) =>
    match collectBal Token.openParen Token.closeParen rest 1 [] with
    | .error e => .error e
    | .ok (inner, rest') =>
      match mmGo g (.ext inner Token.at) with
      | .error e => .error e
      | .ok s =>
        match mmGo g (.loop rest') with
        | .error e => .error e
        | .ok s' => .ok (s ++ s')
  | g + 1, .loop (Token.exclamation :: Token.openParen :: rest) =>
    match collectBal Token.openParen Token.closeParen rest 1 [] with
    | .error e => .error e
    | .ok (inner, rest') =>
      match mmGo g (.ext inner Token.exclamation) with
      | .error e => .error e
      | .ok s =>
        match mmGo g (.loop rest') with
        | .error e => .error e
        | .ok s' => .ok (s ++ s')
  | g + 1, .loop (Token.openParen :: t :: rest) =>
    if isExtOp t then
      match rest with
      | Token.openParen :: rest2 =>
        match collectBal Token.openParen Token.closeParen rest2 1 [] with
        | .error e => .error e
        | .ok (inner, rest') =>
          match mmGo g (.ext inner t) with
          | .error e => .error e
          | .ok s =>
            match mmGo g (.loop rest') with
            | .error e => .error e
            | .ok s' => .ok (s ++ s')
      | _ => .error (.invalidPattern "Expected OpenParen after extglob operator")
    else
      match mmGo g (.loop (t :: rest)) with
      | .error e => .error e
      | .ok s => .ok ("(" ++ s)
  | g + 1, .loop (Token.openBracket :: rest) =>
    match collectBal Token.openBracket Token.closeBracket rest 1 [] with
    | .error e => .error e
    | .ok (inner, rest') =>
      match mmGo g (.loop rest') with
      | .error e => .error e
      | .ok s' => .ok (process_character_class inner ++ s')
  | g + 1, .loop (Token.openBrace :: rest) =>
    match collectBal Token.openBrace Token.closeBrace rest 1 [] with
    | .error e => .error e
    | .ok (inner, rest') =>
      match mmGo g (.braceAlts (splitChar ',' (tokens_to_string inner).toList [])) with
      | .error e => .error e
      | .ok s =>
        match mmGo g (.loop rest') with
        | .error e => .error e
        | .ok s' => .ok ("(?:" ++ s ++ ")" ++ s')
  | g + 1, .loop (Token.escaped c :: rest) =>
    match mmGo g (.loop rest) with
    | .error e => .error e
    | .ok s => .ok (regex_escape_char c ++ s)
  | g + 1, .loop (Token.char c :: rest) =>
    match mmGo g (.loop rest) with
    | .error e => .error e
    | .ok s => .ok (regex_escape_char c ++ s)
  | g + 1, .loop (Token.dot :: rest) =>
    match mmGo g (.loop rest) with
    | .error e => .error e
    | .ok s => .ok ("\\." ++ s)
  | g + 1, .loop (Token.caret :: rest) =>
    match mmGo g (.loop rest) with
    | .error e => .error e
    | .ok s => .ok ("\\^" ++ s)
  | g + 1, .loop (Token.dollar :: rest) =>
    match mmGo g (.loop rest) with
    | .error e => .error e
    | .ok s => .ok ("\\$" ++ s)
  | g + 1, .loop (t :: rest) =>
    match mmGo g (.loop rest) with
    | .error e => .error e
    | .ok s => .ok (tokenStr t ++ s)
  | g + 1, .ext inner op =>
    match mmGo g (.alts (splitPipes inner 0 [] [])) with
    | .error e => .error e
    | .ok s =>
      match op with
      | .question => .ok ("(?:" ++ s ++ ")?")
      | .star => .ok ("(?:" ++ s ++ ")*")
      | .plus => .ok ("(?:" ++ s ++ ")+")
      | .at => .ok ("(?:" ++ s ++ ")")
      | .exclamation => .ok ("(?!(?:" ++ s ++ ")).*")
      | _ => .error (.invalidPattern "Invalid extglob operator")
  | _ + 1, .alts [] => .ok ""
  | g + 1, .alts [a] =>
    match mmGo g (.top (tokens_to_string a)) with
    | .error e => .error e
    | .ok r => .ok (dropTrailDollar (dropLeadCaret r))
  | g + 1, .alts (a :: rest) =>
    match mmGo g (.top (tokens_to_string a)) with
    | .error e => .error e
    | .ok r =>
      match mmGo g (.alts rest) with
      | .error e => .error e
      | .ok rs => .ok (dropTrailDollar (dropLeadCaret r) ++ "|" ++ rs)
  | _ + 1, .braceAlts [] => .ok ""
  | g + 1, .braceAlts [s] => mmGo g (.top s)
  | g + 1, .braceAlts (s :: rest) =>
    match mmGo g (.top s) with
    | .error e => .error e
    | .ok r =>
      match mmGo g (.braceAlts rest) with
      | .error e => .error e
      | .ok rs => .ok (r ++ "|" ++ rs)

/-- `micromatch_to_regex`: translates the extended-glob pattern to an
anchored regex source; `re:`-prefixed input bypasses translation. -/
def micromatch_to_regex (pat : String) : Except GlobError String :=
  mmGo ((pat.length + 4) * (pat.length + 4)) (.top pat)

/-! ## Pattern set (src/patterns/mod.rs)

The `globset` and `regex` engines are external crates; the compiled
glob-set is modelled as the list of glob pattern texts added to the
builder, a compiled regex as its source text, and their matchers as
oracle function parameters (`gm` for the glob-set, `rm` for one regex).
`Glob::new`/`Regex::new` syntax failures of the external engines are not
modelled (no claim depends on them); the complexity guard of
`get_or_compile_regex` is modelled exactly.  The compilation caches only
affect metrics and sharing, never the value returned, so
`get_or_compile_regex` is modelled cache-free here; the caches
themselves are modelled below. -/

/-- Compiled `Patterns`: glob-set texts plus regex source texts. -/
structure PatternsC where
  set : List String
  regexes : List String
deriving DecidableEq, Repr

/-- The complexity guard of `cache::get_or_compile_regex`: sources longer
than 1000 characters or with more than 1000 `(` are rejected with
`RegexTooComplex`.  (Rust measures bytes; they agree on ASCII sources.) -/
def get_or_compile_regex (pat : String) : Except GlobError String :=
  if pat.length > 1000 || countChar pat '(' > 1000 then .error .regexTooComplex
  else .ok pat

/-- `Patterns::is_complex_pattern`: extended-glob metacharacters that
force regex translation. -/
def is_complex_pattern (p : String) : Bool :=
  hasChar p '@' || hasChar p '!' || hasChar p '+' || hasChar p '?' || hasChar p '(' ||
  hasChar p ')' || hasChar p '[' || hasChar p ']' || hasChar p '\x7b' ||
  hasChar p '\x7d' || hasChar p '|'

/-- The per-expansion loop of `Patterns::process_pattern`: `re:` sources
go to the regex list, complex patterns are translated then compiled,
anything else is added to the glob-set builder. -/
def processExpanded : List String → List String → List String →
    Except GlobError (List String × List String)
  | [], bAcc, rAcc => .ok (bAcc, rAcc)
  | e :: rest, bAcc, rAcc =>
    match stripRe e with
    | some regexPattern =>
      match get_or_compile_regex regexPattern with
      | .error err => .error err
      | .ok re => processExpanded rest bAcc (rAcc ++ [re])
    | none =>
      if is_complex_pattern e then
        match micromatch_to_regex e with
        | .error err => .error err
        | .ok regexPattern =>
          match get_or_compile_regex regexPattern with
          | .error err => .error err
          | .ok re => processExpanded rest bAcc (rAcc ++ [re])
      else processExpanded rest (bAcc ++ [e]) rAcc

/-- `Patterns::process_pattern`: brace-expands when the text contains
both `{` and `}`, then processes each expansion. -/
def process_pattern (pattern : String) (bAcc rAcc : List String) :
    Except GlobError (List String × List String) :=
  match (if hasChar pattern '\x7b' && hasChar pattern '\x7d' then expand pattern
         else .ok [pattern]) with
  | .error e => .error e
  | .ok expanded => processExpanded expanded bAcc rAcc

/-- The pattern loop of `Patterns::compile_many`: trim, skip empties,
reject `**/..` and `/../`, process. -/
def compileLoop : List String → List String → List String →
    Except GlobError (List String × List String)
  | [], bAcc, rAcc => .ok (bAcc, rAcc)
  | p :: rest, bAcc, rAcc =>
    let q := trimStr p
    if q.isEmpty then compileLoop rest bAcc rAcc
    else if strContains q "**/.." || strContains q "/../" then .error .pathTraversal
    else
      match process_pattern q bAcc rAcc with
      | .error e => .error e
      | .ok (bAcc', rAcc') => compileLoop rest bAcc' rAcc'

/-- Options record (src/options.rs).  `timeout` is in seconds; the
predicate bundle is abstracted as a boolean function on metadata. -/
structure MetaM where
  readonly : Bool
deriving DecidableEq, Repr

/-- Glob options (src/options.rs, `GlobOptions`).  `case_sensitive`
defaults to the non-Windows value; the source never reads it during
compilation or matching. -/
structure GlobOptionsM where
  follow_symlinks : Bool := false
  max_depth : Option Nat := none
  case_sensitive : Bool := true
  max_inflight : Nat := 64
  timeout : Option Nat := none
  predicates : Option (MetaM → Bool) := none
  root_dir : Option String := none

/-- `Patterns::compile_many` (the options parameter is received but,
like `_opts` in the source, never read). -/
def compile_many (patterns : List String) (_opts : GlobOptionsM) :
    Except GlobError PatternsC :=
  match compileLoop patterns [] [] with
  | .error e => .error e
  | .ok (b, r) => .ok { set := b, regexes := r }

/-- `Patterns::is_match` over matcher oracles: the glob-set is consulted
only when non-empty, then each regex in order. -/
def patterns_is_match (gm : List String → String → Bool) (rm : String → String → Bool)
    (P : PatternsC) (path : String) : Bool :=
  (!P.set.isEmpty && gm P.set path) || P.regexes.any (fun r => rm r path)

/-! ## Compilation caches (src/patterns/cache.rs)

`GlobCache` and `RegexCache` are structurally identical; both are
modelled by one value-type-parametric state.  The `lru` crate's map is
modelled as a key-unique association list in recency order (front =
most recent): `get` moves a found entry to the front, `put` inserts at
the front and truncates to the capacity of 1000. -/

/-- Cache metrics (`CacheMetrics`). -/
structure CacheMetricsM where
  hits : Nat
  misses : Nat
  evictions : Nat
  size : Nat
deriving DecidableEq, Repr

/-- State of one compilation cache: entries `(key, value, expires_at)`
in recency order, plus metrics.  Time is an abstract tick counter. -/
structure CacheStateM (α : Type) where
  entries : List (String × α × Nat)
  metrics : CacheMetricsM

/-- Association-list lookup. -/
def cFind {α : Type} : List (String × α × Nat) → String → Option (α × Nat)
  | [], _ => none
  | (k, v, e) :: rest, key => if k = key then some (v, e) else cFind rest key

/-- Removes every entry with the given key. -/
def cRemove {α : Type} (l : List (String × α × Nat)) (key : String) :
    List (String × α × Nat) :=
  l.filter (fun kv => !(kv.1 = key))

/-- `GlobCache::get` / `RegexCache::get`: an unexpired entry is a hit
(and is freshened in recency order); an expired entry is popped, counted
as an eviction, and the lookup falls through to a miss; an absent key is
a miss. -/
def cacheGet {α : Type} (st : CacheStateM α) (key : String) (now : Nat) :
    Option α × CacheStateM α :=
  match cFind st.entries key with
  | some (v, exp) =>
    if exp > now then
      (some v,
       { st with
         entries := (key, v, exp) :: cRemove st.entries key
         metrics := { st.metrics with hits := st.metrics.hits + 1 } })
    else
      let ents := cRemove st.entries key
      (none,
       { entries := ents
         metrics :=
           { st.metrics with
             size := ents.length
             evictions := st.metrics.evictions + 1
             misses := st.metrics.misses + 1 } })
  | none =>
    (none, { st with metrics := { st.metrics with misses := st.metrics.misses + 1 } })

/-- `put`: inserts with TTL 300 (ticks model seconds), evicting the
least recent entry beyond capacity 1000; `size` tracks the entry count. -/
def cachePut {α : Type} (st : CacheStateM α) (key : String) (v : α) (now : Nat) :
    CacheStateM α :=
  let ents := ((key, v, now + 300) :: cRemove st.entries key).take 1000
  { entries := ents, metrics := { st.metrics with size := ents.length } }

/-- `clear`: drops all entries, zeroes `size`, bumps `evictions` once. -/
def cacheClear {α : Type} (st : CacheStateM α) : CacheStateM α :=
  { entries := [],
    metrics := { st.metrics with size := 0, evictions := st.metrics.evictions + 1 } }

/-- The operations a caller can perform on one compilation cache. -/
inductive CacheOp (α : Type) where
  | get (key : String) (now : Nat)
  | put (key : String) (v : α) (now : Nat)
  | clear

/-- Runs a sequence of cache operations. -/
def runOps {α : Type} (st : CacheStateM α) : List (CacheOp α) → CacheStateM α
  | [] => st
  | .get key now :: rest => runOps (cacheGet st key now).2 rest
  | .put key v now :: rest => runOps (cachePut st key v now) rest
  | .clear :: rest => runOps (cacheClear st) rest

/-- Number of lookups (`get` operations) in a sequence. -/
def countGets {α : Type} : List (CacheOp α) → Nat
  | [] => 0
  | .get _ _ :: rest => countGets rest + 1
  | _ :: rest => countGets rest

/-- A freshly constructed cache (`GlobCache::new` / `RegexCache::new`). -/
def cacheInit (α : Type) : CacheStateM α :=
  { entries := [], metrics := { hits := 0, misses := 0, evictions := 0, size := 0 } }

/-! ## Metadata stat service (src/batch_io.rs)

`BatchIO::stat` over an abstract filesystem given by `fsMeta` (metadata
query, resolving symlinks, `none` = I/O error) and `isLink` (is the path
itself a symlink).  The metadata cache is an association list in recency
order with TTL 30 and the walker capacity 1000; time is a tick counter. -/

/-- The fresh-query tail of `stat`: symlink policy, filesystem query,
read-only check, cache insert. -/
def statFresh (follow : Bool) (fsMeta : String → Option MetaM) (isLink : String → Bool)
    (now : Nat) (cache : List (String × MetaM × Nat)) (path : String) :
    Except GlobError MetaM × List (String × MetaM × Nat) :=
  if !follow && isLink path then (.error (.other "Symlinks not allowed"), cache)
  else
    match fsMeta path with
    | none => (.error .io, cache)
    | some m =>
      if m.readonly then (.error .permissionDenied, cache)
      else (.ok m, ((path, m, now + 30) :: cRemove cache path).take 1000)

/-- `BatchIO::stat`: an unexpired cached entry is returned (freshened);
an expired entry is popped and the query falls through to `statFresh`. -/
def batch_stat (follow : Bool) (fsMeta : String → Option MetaM) (isLink : String → Bool)
    (now : Nat) (cache : List (String × MetaM × Nat)) (path : String) :
    Except GlobError MetaM × List (String × MetaM × Nat) :=
  match cFind cache path with
  | some (m, exp) =>
    if exp > now then (.ok m, (path, m, exp) :: cRemove cache path)
    else statFresh follow fsMeta isLink now (cRemove cache path) path
  | none => statFresh follow fsMeta isLink now cache path

/-! ## Filesystem model and the two walkers (src/sync.rs, src/async_glob.rs)

The filesystem is an unchanging finite tree.  `FsT` is simultaneously a
node and a directory's child list: `file m` is a regular file,
`dnil`/`dcons name child rest` build a directory by listing its children
in readdir order (a `file` in child-list position is never produced by
the constructions used here).  The model contains no symbolic links, so
`follow_symlinks`, the visited set and the cycle checks of both walkers
are inert and omitted; paths are `/`-joined strings and every path is
valid UTF-8.  A whole filesystem maps root path strings to their nodes.

The stat calls the walkers make through `BatchIO` are modelled by their
observable outcome on an unchanging tree: a read-only file fails with
`PermissionDenied`, any other file yields its metadata (the cache, which
only affects sharing, is modelled separately above).  The streaming
walker's semaphore never times out in the model (the bounded concurrency
only reorders in-flight results; the emitted multiset is unchanged), and
`spawn_blocking` work is evaluated in order. -/

/-- A filesystem node / directory child list (see the section comment). -/
inductive FsT where
  | file (m : MetaM)
  | dnil
  | dcons (name : String) (child : FsT) (rest : FsT)
deriving DecidableEq, Repr

/-- Tree size, the streaming walker's fuel measure. -/
def FsT.size : FsT → Nat
  | .file _ => 1
  | .dnil => 1
  | .dcons _ c r => c.size + r.size

/-- Is this node a directory? (`Path::is_dir` on the entry.) -/
def FsT.isDirNode : FsT → Bool
  | .file _ => false
  | _ => true

/-- Are all files in the tree writable (no read-only permission bit)? -/
def FsT.noRO : FsT → Bool
  | .file m => !m.readonly
  | .dnil => true
  | .dcons _ c r => c.noRO && r.noRO

/-- A filesystem: root path strings mapped to nodes. -/
def Fsys : Type := List (String × FsT)

/-- Root lookup (`WalkDir::new` / the streaming root `read_dir`). -/
def lookupFs : Fsys → String → Option FsT
  | [], _ => none
  | (r, t) :: rest, root => if r = root then some t else lookupFs rest root

/-- Is depth `d` within the optional walkdir `max_depth`? -/
def depthLE (d : Nat) : Option Nat → Bool
  | none => true
  | some m => d ≤ m

/-- `is_path_allowed`: inside the `root_dir` subtree when one is set. -/
def pathAllowed (p : String) : Option String → Bool
  | none => true
  | some root => pathStarts p root

/-- The entries `WalkDir` yields strictly below a directory, in readdir
order, depth-first, with entries deeper than `max_depth` cut off.  The
argument is the directory's child list; `depth` is the directory's own
walkdir depth. -/
def walkKids (maxd : Option Nat) (p : String) (depth : Nat) : FsT → List (String × FsT)
  | .file _ => []
  | .dnil => []
  | .dcons n c r =>
    (if depthLE (depth + 1) maxd then
      (p ++ "/" ++ n, c) ::
        (match c with
         | .file _ => []
         | c' => walkKids maxd (p ++ "/" ++ n) (depth + 1) c')
     else []) ++ walkKids maxd p depth r

/-- The per-entry body of `glob_sync`'s loop: root containment, skip
directories, pattern match, predicate filtering through stat (a
read-only file aborts the call with `PermissionDenied`, exactly as
`BatchIO::stat` does). -/
def processEntries (gm : List String → String → Bool) (rm : String → String → Bool)
    (P : PatternsC) (rootOpt : Option String) (preds : Option (MetaM → Bool)) :
    List (String × FsT) → Except GlobError (List String)
  | [] => .ok []
  | (p, t) :: rest =>
    if !pathAllowed p rootOpt then processEntries gm rm P rootOpt preds rest
    else
      match t with
      | .file m =>
        if !patterns_is_match gm rm P p then processEntries gm rm P rootOpt preds rest
        else
          match preds with
          | none =>
            match processEntries gm rm P rootOpt preds rest with
            | .error e => .error e
            | .ok l => .ok (p :: l)
          | some pd =>
            if m.readonly then .error .permissionDenied
            else if pd m then
              match processEntries gm rm P rootOpt preds rest with
              | .error e => .error e
              | .ok l => .ok (p :: l)
            else processEntries gm rm P rootOpt preds rest
      | _ => processEntries gm rm P rootOpt preds rest

/-- `glob_sync`: walks from `root_dir` (or `.`), aborting with a
`Walkdir` error when the root cannot be read, and returns the matching
file paths in traversal order. -/
def glob_sync (gm : List String → String → Bool) (rm : String → String → Bool)
    (fs : Fsys) (P : PatternsC) (opts : GlobOptionsM) (preds : Option (MetaM → Bool)) :
    Except GlobError (List String) :=
  let root := opts.root_dir.getD "."
  match lookupFs fs root with
  | none => .error .walkdir
  | some t =>
    processEntries gm rm P opts.root_dir preds
      ((root, t) :: walkKids opts.max_depth root 0 t)

/-- An item yielded by the streaming walker. -/
inductive StreamItem where
  | okPath (p : String)
  | errItem (e : GlobError)
deriving DecidableEq, Repr

/-- The offloaded per-file work of the streaming walker: pattern match,
then predicate filtering through stat; a stat failure is emitted as an
error item, a filtered-out file is silent. -/
def streamFileItem (gm : List String → String → Bool) (rm : String → String → Bool)
    (P : PatternsC) (preds : Option (MetaM → Bool)) (p : String) (m : MetaM) :
    List StreamItem :=
  if !patterns_is_match gm rm P p then []
  else
    match preds with
    | none => [.okPath p]
    | some pd =>
      if m.readonly then [.errItem .permissionDenied]
      else if pd m then [.okPath p] else []

/-- May the walker descend into a directory found at frame depth
`depth`? (`if depth >= max_depth { continue }`.) -/
def pushOK (depth : Nat) : Option Nat → Bool
  | none => true
  | some m => depth < m

/-- The child loop of one streaming directory frame: yields file items
in readdir order and pushes sub-directory frames onto the stack (so the
last-listed directory is popped first, as with `Vec::push`/`Vec::pop`).
Returns the items and the updated stack. -/
def streamKids (gm : List String → String → Bool) (rm : String → String → Bool)
    (P : PatternsC) (rootOpt : Option String) (preds : Option (MetaM → Bool))
    (maxd : Option Nat) (dirP : String) (depth : Nat) :
    FsT → List (String × Nat × FsT) → List StreamItem × List (String × Nat × FsT)
  | .file _, stk => ([], stk)
  | .dnil, stk => ([], stk)
  | .dcons n c r, stk =>
    let p := dirP ++ "/" ++ n
    if !pathAllowed p rootOpt then streamKids gm rm P rootOpt preds maxd dirP depth r stk
    else
      match c with
      | .file m =>
        let (items, stk') := streamKids gm rm P rootOpt preds maxd dirP depth r stk
        (streamFileItem gm rm P preds p m ++ items, stk')
      | c' =>
        if pushOK depth maxd then
          streamKids gm rm P rootOpt preds maxd dirP depth r ((p, depth + 1, c') :: stk)
        else streamKids gm rm P rootOpt preds maxd dirP depth r stk

/-- The driver loop of `glob_stream`: pops `(directory, depth)` frames;
a frame whose node is not a directory yields a read error and moves on.
`gas` only bounds the recursion; `FsT.size` of everything on the stack
(which strictly decreases each step) is always enough. -/
def streamLoop (gm : List String → String → Bool) (rm : String → String → Bool)
    (P : PatternsC) (rootOpt : Option String) (preds : Option (MetaM → Bool))
    (maxd : Option Nat) : Nat → List (String × Nat × FsT) → List StreamItem
  | _, [] => []
  | 0, _ :: _ => []
  | g + 1, (p, d, t) :: rest =>
    match t with
    | .file _ => .errItem .io :: streamLoop gm rm P rootOpt preds maxd g rest
    | t' =>
      let (items, stk) := streamKids gm rm P rootOpt preds maxd p d t' rest
      items ++ streamLoop gm rm P rootOpt preds maxd g stk

/-- Total tree size on a stack. -/
def stackMeasure : List (String × Nat × FsT) → Nat
  | [] => 0
  | (_, _, t) :: rest => t.size + stackMeasure rest

/-- `glob_stream`: the sequence of items the stream yields.  A missing
root directory is a single read-error item. -/
def glob_stream (gm : List String → String → Bool) (rm : String → String → Bool)
    (fs : Fsys) (P : PatternsC) (opts : GlobOptionsM) (preds : Option (MetaM → Bool)) :
    List StreamItem :=
  let root := opts.root_dir.getD "."
  match lookupFs fs root with
  | none => [.errItem .io]
  | some t => streamLoop gm rm P opts.root_dir preds opts.max_depth t.size [(root, 0, t)]

/-- The successfully emitted paths of a stream. -/
def okPaths (items : List StreamItem) : List String :=
  items.filterMap (fun it => match it with | .okPath p => some p | .errItem _ => none)

/-- `PatternHunt::sync`: compiles the patterns once, then runs
`glob_sync` once per entry of `roots`, concatenating the results.  As in
the source, the per-iteration root value is bound (`let _root = ...`)
but never passed on: every iteration traverses `opts.root_dir`. -/
def phRootsLoop (gm : List String → String → Bool) (rm : String → String → Bool)
    (fs : Fsys) (P : PatternsC) (opts : GlobOptionsM) :
    List String → List String → Except GlobError (List String)
  | [], acc => .ok acc
  | _root :: rest, acc =>
    match glob_sync gm rm fs P opts opts.predicates with
    | .error e => .error e
    | .ok v => phRootsLoop gm rm fs P opts rest (acc ++ v)

/-- The public synchronous facade `PatternHunt::sync`. -/
def patternhunt_sync (gm : List String → String → Bool) (rm : String → String → Bool)
    (fs : Fsys) (patterns : List String) (roots : List String) (opts : GlobOptionsM) :
    Except GlobError (List String) :=
  match compile_many patterns opts with
  | .error e => .error e
  | .ok P => phRootsLoop gm rm fs P opts roots []

/-- Modelled from the spec: `glob_sync(patterns, roots, options)`
"traverses each root in the given order and concatenates results" — the
per-root traversal the facade is documented to perform, used as the
reference behaviour for the multi-root claim. -/
def phRootsSpecLoop (gm : List String → String → Bool) (rm : String → String → Bool)
    (fs : Fsys) (P : PatternsC) (opts : GlobOptionsM) :
    List String → List String → Except GlobError (List String)
  | [], acc => .ok acc
  | r :: rest, acc =>
    match glob_sync gm rm fs P { opts with root_dir := some r } opts.predicates with
    | .error e => .error e
    | .ok v => phRootsSpecLoop gm rm fs P opts rest (acc ++ v)

/-- Modelled from the spec: the facade with per-root traversal. -/
def patternhunt_sync_spec (gm : List String → String → Bool) (rm : String → String → Bool)
    (fs : Fsys) (patterns : List String) (roots : List String) (opts : GlobOptionsM) :
    Except GlobError (List String) :=
  match compile_many patterns opts with
  | .error e => .error e
  | .ok P => phRootsSpecLoop gm rm fs P opts roots []

/-! ## Lemmas: brace expansion output cap (claim C7) -/

/-- Accumulator precondition for the loop calls of `brGo`. -/
def brPre : BrCall → Prop
  | .inner _ _ => True
  | .items _ _ _ _ acc => acc.length ≤ 1000
  | .mids _ _ _ _ acc => acc.length ≤ 1000

theorem pushAll_bound (before mid : String) :
    ∀ (sufs acc l : List String), acc.length ≤ 1000 →
      pushAll before mid sufs acc = .ok l → l.length ≤ 1000 := by
  intro sufs
  induction sufs with
  | nil =>
    intro acc l hle h
    simp only [pushAll] at h
    cases h
    exact hle
  | cons suf rest ih =>
    intro acc l hle h
    simp only [pushAll] at h
    split at h
    · cases h
    · exact ih _ _ (by omega) h

theorem brGo_bound : ∀ (g : Nat) (call : BrCall), brPre call →
    ∀ l, brGo g call = .ok l → l.length ≤ 1000 := by
  intro g
  induction g with
  | zero =>
    intro call _ l h
    simp only [brGo] at h
    cases h
  | succ g ih =>
    intro call hpre l h
    match call with
    | .inner input depth =>
      simp only [brGo] at h
      split at h
      · cases h
      · split at h
        · cases h
          simp
        · split at h
          · cases h
          · exact ih _ (by simp [brPre]) l h
    | .items before after depth its acc =>
      match its with
      | [] =>
        simp only [brGo] at h
        cases h
        exact hpre
      | it :: rest =>
        simp only [brGo] at h
        cases hms : brGo g (.inner it (depth + 1)) with
        | error e => rw [hms] at h; dsimp only at h; cases h
        | ok ms =>
          rw [hms] at h
          dsimp only at h
          cases hmid : brGo g (.mids before after depth ms acc) with
          | error e => rw [hmid] at h; dsimp only at h; cases h
          | ok acc' =>
            rw [hmid] at h
            dsimp only at h
            have h1 : acc'.length ≤ 1000 :=
              ih (.mids before after depth ms acc) hpre acc' hmid
            exact ih (.items before after depth rest acc') h1 l h
    | .mids before after depth ms acc =>
      match ms with
      | [] =>
        simp only [brGo] at h
        cases h
        exact hpre
      | mid :: rest =>
        simp only [brGo] at h
        cases hsufs : brGo g (.inner after (depth + 1)) with
        | error e => rw [hsufs] at h; dsimp only at h; cases h
        | ok sufs =>
          rw [hsufs] at h
          dsimp only at h
          cases hacc : pushAll before mid sufs acc with
          | error e => rw [hacc] at h; dsimp only at h; cases h
          | ok acc' =>
            rw [hacc] at h
            dsimp only at h
            have h1 : acc'.length ≤ 1000 := pushAll_bound _ _ _ _ _ hpre hacc
            exact ih (.mids before after depth rest acc') h1 l h

/-! ## Lemmas: cache hit/miss accounting (claim C9) -/

theorem cacheGet_counts {α : Type} (st : CacheStateM α) (key : String) (now : Nat) :
    ((cacheGet st key now).2).metrics.hits + ((cacheGet st key now).2).metrics.misses =
      st.metrics.hits + st.metrics.misses + 1 := by
  unfold cacheGet
  cases cFind st.entries key with
  | none => simp; omega
  | some ve =>
    simp only
    split
    · simp; omega
    · simp; omega

theorem runOps_counts {α : Type} : ∀ (ops : List (CacheOp α)) (st : CacheStateM α),
    (runOps st ops).metrics.hits + (runOps st ops).metrics.misses =
      st.metrics.hits + st.metrics.misses + countGets ops := by
  intro ops
  induction ops with
  | nil => intro st; simp [runOps, countGets]
  | cons op rest ih =>
    intro st
    match op with
    | .get key now =>
      simp only [runOps, countGets]
      rw [ih]
      have := cacheGet_counts st key now
      omega
    | .put key v now =>
      simp only [runOps, countGets]
      rw [ih]
      simp [cachePut]
    | .clear =>
      simp only [runOps, countGets]
      rw [ih]
      simp [cacheClear]

/-! ## Lemmas: stat service (claim C8) -/

theorem cFind_cRemove_none {α : Type} :
    ∀ (l : List (String × α × Nat)) (key : String), cFind (cRemove l key) key = none := by
  intro l key
  induction l with
  | nil => simp [cRemove, cFind]
  | cons kv rest ih =>
    by_cases hk : kv.1 = key
    · simpa [cRemove, hk] using ih
    · simpa [cRemove, cFind, hk] using ih

/-! ## Lemmas: walker characterizations (claims C3, C4)

`collectKids` is the canonical list of matching files strictly below a
directory (depth-first, readdir order), against which both walkers are
measured; `collectRootFiles` keeps only the matching files directly in
the directory. -/

/-- Does the metadata pass the (optional) predicate bundle? -/
def predPass (preds : Option (MetaM → Bool)) (m : MetaM) : Bool :=
  match preds with
  | none => true
  | some pd => pd m

/-- All matching files in the subtree below a directory (child-list
argument), in depth-first readdir order. -/
def collectKids (gm : List String → String → Bool) (rm : String → String → Bool)
    (P : PatternsC) (preds : Option (MetaM → Bool)) (dirP : String) : FsT → List String
  | .file _ => []
  | .dnil => []
  | .dcons n c r =>
    (match c with
     | .file m =>
       if patterns_is_match gm rm P (dirP ++ "/" ++ n) && predPass preds m then
         [dirP ++ "/" ++ n]
       else []
     | c' => collectKids gm rm P preds (dirP ++ "/" ++ n) c') ++
    collectKids gm rm P preds dirP r

/-- The matching files directly in a directory (child-list argument). -/
def collectRootFiles (gm : List String → String → Bool) (rm : String → String → Bool)
    (P : PatternsC) (preds : Option (MetaM → Bool)) (dirP : String) : FsT → List String
  | .dcons n c r =>
    (match c with
     | .file m =>
       if patterns_is_match gm rm P (dirP ++ "/" ++ n) && predPass preds m then
         [dirP ++ "/" ++ n]
       else []
     | _ => []) ++ collectRootFiles gm rm P preds dirP r
  | _ => []

/-- The file items one directory frame yields, in readdir order. -/
def fileItemsOf (gm : List String → String → Bool) (rm : String → String → Bool)
    (P : PatternsC) (preds : Option (MetaM → Bool)) (dirP : String) : FsT → List StreamItem
  | .dcons n c r =>
    (match c with
     | .file m => streamFileItem gm rm P preds (dirP ++ "/" ++ n) m
     | _ => []) ++ fileItemsOf gm rm P preds dirP r
  | _ => []

/-- The sub-directory frames one directory frame pushes, in readdir order. -/
def dirFramesOf (maxd : Option Nat) (dirP : String) (depth : Nat) :
    FsT → List (String × Nat × FsT)
  | .dcons n c r =>
    (match c with
     | .file _ => []
     | c' => if pushOK depth maxd then [(dirP ++ "/" ++ n, depth + 1, c')] else []) ++
    dirFramesOf maxd dirP depth r
  | _ => []

theorem FsT.size_pos : ∀ t : FsT, 1 ≤ t.size := by
  intro t
  induction t with
  | file m => simp [FsT.size]
  | dnil => simp [FsT.size]
  | dcons n c r ihc ihr => simp [FsT.size]; omega

theorem stackMeasure_append : ∀ a b : List (String × Nat × FsT),
    stackMeasure (a ++ b) = stackMeasure a + stackMeasure b := by
  intro a b
  induction a with
  | nil => simp [stackMeasure]
  | cons fr rest ih => simp [stackMeasure, ih]; omega

theorem stackMeasure_reverse : ∀ a : List (String × Nat × FsT),
    stackMeasure a.reverse = stackMeasure a := by
  intro a
  induction a with
  | nil => rfl
  | cons fr rest ih =>
    simp only [List.reverse_cons, stackMeasure_append, ih, stackMeasure]
    omega

theorem dirFramesOf_measure (maxd : Option Nat) :
    ∀ (t : FsT) (dirP : String) (depth : Nat),
      stackMeasure (dirFramesOf maxd dirP depth t) + 1 ≤ t.size := by
  intro t
  induction t with
  | file m => intro dirP depth; simp [dirFramesOf, stackMeasure, FsT.size]
  | dnil => intro dirP depth; simp [dirFramesOf, stackMeasure, FsT.size]
  | dcons n c r ihc ihr =>
    intro dirP depth
    have hr := ihr dirP depth
    have hc := FsT.size_pos c
    cases c with
    | file m =>
      simp only [dirFramesOf, List.nil_append, FsT.size]
      omega
    | dnil =>
      simp only [dirFramesOf, FsT.size, stackMeasure_append]
      split
      · simp [stackMeasure, FsT.size]; omega
      · simp [stackMeasure]; omega
    | dcons n2 c2 r2 =>
      simp only [FsT.size] at hc
      simp only [dirFramesOf, FsT.size, stackMeasure_append]
      split
      · simp [stackMeasure, FsT.size]; omega
      · simp [stackMeasure]; omega

/-- Membership in the pushed frames preserves the no-read-only invariant. -/
theorem dirFramesOf_noRO (maxd : Option Nat) :
    ∀ (t : FsT) (dirP : String) (depth : Nat), t.noRO = true →
      ∀ fr ∈ dirFramesOf maxd dirP depth t, fr.2.2.noRO = true := by
  intro t
  induction t with
  | file m => intro dirP depth _ fr hfr; simp [dirFramesOf] at hfr
  | dnil => intro dirP depth _ fr hfr; simp [dirFramesOf] at hfr
  | dcons n c r ihc ihr =>
    intro dirP depth hro fr hfr
    have hro2 : c.noRO = true ∧ r.noRO = true := by
      simpa [FsT.noRO, Bool.and_eq_true] using hro
    cases c with
    | file m =>
      simp only [dirFramesOf, List.nil_append] at hfr
      exact ihr dirP depth hro2.2 fr hfr
    | dnil =>
      simp only [dirFramesOf, List.mem_append] at hfr
      rcases hfr with hfr | hfr
      · split at hfr
        · simp at hfr; subst hfr; exact hro2.1
        · simp at hfr
      · exact ihr dirP depth hro2.2 fr hfr
    | dcons n2 c2 r2 =>
      simp only [dirFramesOf, List.mem_append] at hfr
      rcases hfr with hfr | hfr
      · split at hfr
        · simp at hfr; subst hfr; exact hro2.1
        · simp at hfr
      · exact ihr dirP depth hro2.2 fr hfr

/-- `streamKids` with no `root_dir` restriction yields exactly the file
items of the directory and pushes the sub-directory frames in reverse
readdir order on top of the incoming stack. -/
theorem streamKids_char (gm : List String → String → Bool) (rm : String → String → Bool)
    (P : PatternsC) (preds : Option (MetaM → Bool)) (maxd : Option Nat) :
    ∀ (t : FsT) (dirP : String) (depth : Nat) (stk : List (String × Nat × FsT)),
      streamKids gm rm P none preds maxd dirP depth t stk =
        (fileItemsOf gm rm P preds dirP t,
         (dirFramesOf maxd dirP depth t).reverse ++ stk) := by
  intro t
  induction t with
  | file m => intro dirP depth stk; simp [streamKids, fileItemsOf, dirFramesOf]
  | dnil => intro dirP depth stk; simp [streamKids, fileItemsOf, dirFramesOf]
  | dcons n c r ihc ihr =>
    intro dirP depth stk
    cases c with
    | file m =>
      simp [streamKids, pathAllowed, fileItemsOf, dirFramesOf, ihr]
    | dnil =>
      by_cases hp : pushOK depth maxd
      · simp [streamKids, pathAllowed, hp, ihr, fileItemsOf, dirFramesOf]
      · simp [streamKids, pathAllowed, hp, ihr, fileItemsOf, dirFramesOf]
    | dcons n2 c2 r2 =>
      by_cases hp : pushOK depth maxd
      · simp [streamKids, pathAllowed, hp, ihr, fileItemsOf, dirFramesOf]
      · simp [streamKids, pathAllowed, hp, ihr, fileItemsOf, dirFramesOf]

theorem okPaths_append : ∀ a b : List StreamItem,
    okPaths (a ++ b) = okPaths a ++ okPaths b := by
  intro a b
  simp [okPaths]

/-- A single worker's visible path: with no read-only bit it is exactly
the canonical match test. -/
theorem okPaths_fileItem (gm : List String → String → Bool) (rm : String → String → Bool)
    (P : PatternsC) (preds : Option (MetaM → Bool)) (p : String) (m : MetaM)
    (hro : m.readonly = false) :
    okPaths (streamFileItem gm rm P preds p m) =
      if patterns_is_match gm rm P p && predPass preds m then [p] else [] := by
  unfold streamFileItem predPass
  by_cases hm : patterns_is_match gm rm P p
  · cases preds with
    | none => simp [hm, okPaths]
    | some pd =>
      by_cases hpd : pd m
      · simp [hm, hro, hpd, okPaths]
      · simp [hm, hro, hpd, okPaths]
  · cases preds with
    | none => simp [hm, okPaths]
    | some pd => simp [hm, okPaths]

/-- The visible paths of one frame's direct file items. -/
theorem okPaths_fileItemsOf (gm : List String → String → Bool) (rm : String → String → Bool)
    (P : PatternsC) (preds : Option (MetaM → Bool)) :
    ∀ (t : FsT) (dirP : String), t.noRO = true →
      okPaths (fileItemsOf gm rm P preds dirP t) = collectRootFiles gm rm P preds dirP t := by
  intro t
  induction t with
  | file m => intro dirP _; simp [fileItemsOf, collectRootFiles, okPaths]
  | dnil => intro dirP _; simp [fileItemsOf, collectRootFiles, okPaths]
  | dcons n c r ihc ihr =>
    intro dirP hro
    have hro2 : c.noRO = true ∧ r.noRO = true := by
      simpa [FsT.noRO, Bool.and_eq_true] using hro
    cases c with
    | file m =>
      have hmro : m.readonly = false := by
        have := hro2.1
        simpa [FsT.noRO] using this
      simp only [fileItemsOf, collectRootFiles, okPaths_append, ihr dirP hro2.2,
        okPaths_fileItem gm rm P preds _ m hmro]
    | dnil =>
      simp only [fileItemsOf, collectRootFiles, List.nil_append]
      exact ihr dirP hro2.2
    | dcons n2 c2 r2 =>
      simp only [fileItemsOf, collectRootFiles, List.nil_append]
      exact ihr dirP hro2.2

/-- Flattening the matching-file collections of a list of frames. -/
def flatColl (gm : List String → String → Bool) (rm : String → String → Bool)
    (P : PatternsC) (preds : Option (MetaM → Bool))
    (frames : List (String × Nat × FsT)) : List String :=
  frames.flatMap (fun fr => collectKids gm rm P preds fr.1 fr.2.2)

theorem flatColl_append (gm : List String → String → Bool) (rm : String → String → Bool)
    (P : PatternsC) (preds : Option (MetaM → Bool)) (a b : List (String × Nat × FsT)) :
    flatColl gm rm P preds (a ++ b) =
      flatColl gm rm P preds a ++ flatColl gm rm P preds b := by
  simp [flatColl]

theorem flatColl_cons (gm : List String → String → Bool) (rm : String → String → Bool)
    (P : PatternsC) (preds : Option (MetaM → Bool)) (fr : String × Nat × FsT)
    (rest : List (String × Nat × FsT)) :
    flatColl gm rm P preds (fr :: rest) =
      collectKids gm rm P preds fr.1 fr.2.2 ++ flatColl gm rm P preds rest := by
  simp [flatColl]

theorem flatColl_reverse_perm (gm : List String → String → Bool)
    (rm : String → String → Bool) (P : PatternsC) (preds : Option (MetaM → Bool)) :
    ∀ a : List (String × Nat × FsT),
      (flatColl gm rm P preds a.reverse).Perm (flatColl gm rm P preds a) := by
  intro a
  induction a with
  | nil => simp [flatColl]
  | cons fr rest ih =>
    rw [List.reverse_cons, flatColl_append, flatColl_cons, flatColl_cons]
    simp only [flatColl, List.flatMap_nil, List.append_nil]
    exact List.perm_append_comm.trans (List.Perm.append_left _ ih)

/-- Rotation permutation `X ++ (C ++ Y) ~ C ++ (X ++ Y)`. -/
theorem perm_rotate {α : Type} (X C Y : List α) : (X ++ (C ++ Y)).Perm (C ++ (X ++ Y)) := by
  have h : ((X ++ C) ++ Y).Perm ((C ++ X) ++ Y) :=
    List.Perm.append_right Y List.perm_append_comm
  simpa [List.append_assoc] using h

/-- Direct file matches plus the collections of the pushed sub-directory
frames are, up to permutation, the whole subtree collection (unlimited
depth). -/
theorem interleave_perm (gm : List String → String → Bool) (rm : String → String → Bool)
    (P : PatternsC) (preds : Option (MetaM → Bool)) :
    ∀ (t : FsT) (dirP : String) (depth : Nat),
      (collectRootFiles gm rm P preds dirP t ++
        flatColl gm rm P preds (dirFramesOf none dirP depth t)).Perm
        (collectKids gm rm P preds dirP t) := by
  intro t
  induction t with
  | file m => intro dirP depth; simp [collectRootFiles, dirFramesOf, collectKids, flatColl]
  | dnil => intro dirP depth; simp [collectRootFiles, dirFramesOf, collectKids, flatColl]
  | dcons n c r ihc ihr =>
    intro dirP depth
    cases c with
    | file m =>
      simp only [collectRootFiles, dirFramesOf, collectKids, List.nil_append]
      have ih := ihr dirP depth
      by_cases hm : patterns_is_match gm rm P (dirP ++ "/" ++ n) && predPass preds m
      · simp only [hm, if_true, List.cons_append, List.singleton_append]
        exact List.Perm.cons _ ih
      · simp only [hm, if_false, List.nil_append]
        exact ih
    | dnil =>
      have hkids : collectKids gm rm P preds (dirP ++ "/" ++ n) FsT.dnil = [] := rfl
      simp only [collectRootFiles, dirFramesOf, collectKids, List.nil_append, pushOK,
        if_true, List.singleton_append, flatColl_cons, hkids]
      exact ihr dirP depth
    | dcons n2 c2 r2 =>
      simp only [collectRootFiles, dirFramesOf, collectKids, List.nil_append, pushOK,
        if_true, List.singleton_append, flatColl_cons]
      exact (perm_rotate _ _ _).trans (List.Perm.append_left _ (ihr dirP depth))

/-- Every tree on a stack satisfies the no-read-only invariant. -/
def stackNoRO (s : List (String × Nat × FsT)) : Prop :=
  ∀ fr ∈ s, fr.2.2.noRO = true

/-- Main streaming lemma (no depth limit, no `root_dir` restriction, no
read-only files): with enough gas, the visible paths of the driver loop
are a permutation of the flattened subtree collections of the stack. -/
theorem streamLoop_perm (gm : List String → String → Bool) (rm : String → String → Bool)
    (P : PatternsC) (preds : Option (MetaM → Bool)) :
    ∀ (g : Nat) (s : List (String × Nat × FsT)), stackMeasure s ≤ g → stackNoRO s →
      (okPaths (streamLoop gm rm P none preds none g s)).Perm
        (flatColl gm rm P preds s) := by
  intro g
  induction g with
  | zero =>
    intro s hm _
    cases s with
    | nil => simp [streamLoop, okPaths, flatColl]
    | cons fr rest =>
      exfalso
      have h1 := FsT.size_pos fr.2.2
      have : stackMeasure (fr :: rest) = fr.2.2.size + stackMeasure rest := by
        cases fr with
        | mk p dt => cases dt with | mk d t => simp [stackMeasure]
      omega
  | succ g ih =>
    intro s hm hro
    cases s with
    | nil => simp [streamLoop, okPaths, flatColl]
    | cons fr rest =>
      obtain ⟨p, d, t⟩ := fr
      have hmcons : stackMeasure ((p, d, t) :: rest) = t.size + stackMeasure rest := by
        simp [stackMeasure]
      have hrest : stackNoRO rest := fun fr2 h2 => hro fr2 (List.mem_cons_of_mem _ h2)
      have htno : t.noRO = true := hro (p, d, t) (List.mem_cons_self _ _)
      cases t with
      | file m =>
        have : streamLoop gm rm P none preds none (g + 1) ((p, d, .file m) :: rest) =
            .errItem .io :: streamLoop gm rm P none preds none g rest := rfl
        rw [this]
        have hstep : okPaths (.errItem .io :: streamLoop gm rm P none preds none g rest) =
            okPaths (streamLoop gm rm P none preds none g rest) := by
          simp [okPaths]
        rw [hstep, flatColl_cons]
        have hk : collectKids gm rm P preds p (FsT.file m) = [] := rfl
        rw [hk, List.nil_append]
        exact ih rest (by simp [FsT.size] at hmcons; omega) hrest
      | dnil =>
        rw [show streamLoop gm rm P none preds none (g + 1) ((p, d, .dnil) :: rest) =
            (streamKids gm rm P none preds none p d .dnil rest).1 ++
              streamLoop gm rm P none preds none g
                (streamKids gm rm P none preds none p d .dnil rest).2 from rfl]
        rw [streamKids_char gm rm P preds none .dnil p d rest]
        simp only [fileItemsOf, dirFramesOf, List.reverse_nil, List.nil_append,
          okPaths_append]
        have ihr := ih rest (by
          have := FsT.size_pos FsT.dnil
          omega) hrest
        rw [flatColl_cons]
        have hk : collectKids gm rm P preds p FsT.dnil = [] := rfl
        rw [hk, List.nil_append]
        exact ihr
      | dcons n c r =>
        rw [show streamLoop gm rm P none preds none (g + 1) ((p, d, .dcons n c r) :: rest) =
            (streamKids gm rm P none preds none p d (.dcons n c r) rest).1 ++
              streamLoop gm rm P none preds none g
                (streamKids gm rm P none preds none p d (.dcons n c r) rest).2 from rfl]
        rw [streamKids_char gm rm P preds none (.dcons n c r) p d rest]
        simp only [okPaths_append]
        -- gas bookkeeping for the recursive stack
        have hms : stackMeasure ((dirFramesOf none p d (.dcons n c r)).reverse ++ rest) ≤ g := by
          rw [stackMeasure_append, stackMeasure_reverse]
          have h1 := dirFramesOf_measure none (.dcons n c r) p d
          simp only [FsT.size] at h1
          rw [hmcons] at hm
          simp only [FsT.size] at hm
          omega
        have hnro : stackNoRO ((dirFramesOf none p d (.dcons n c r)).reverse ++ rest) := by
          intro fr2 h2
          rw [List.mem_append, List.mem_reverse] at h2
          rcases h2 with h2 | h2
          · exact dirFramesOf_noRO none (.dcons n c r) p d htno fr2 h2
          · exact hrest fr2 h2
        have ihstk := ih _ hms hnro
        rw [okPaths_fileItemsOf gm rm P preds (.dcons n c r) p htno]
        have hsplit : flatColl gm rm P preds
            ((dirFramesOf none p d (.dcons n c r)).reverse ++ rest) =
            flatColl gm rm P preds (dirFramesOf none p d (.dcons n c r)).reverse ++
              flatColl gm rm P preds rest := flatColl_append gm rm P preds _ _
        rw [hsplit] at ihstk
        -- assemble the permutation
        refine ((List.Perm.append_left _ ihstk).trans ?_)
        rw [flatColl_cons]
        have hrev := flatColl_reverse_perm gm rm P preds (dirFramesOf none p d (.dcons n c r))
        refine (List.Perm.append_left _ (List.Perm.append_right _ hrev)).trans ?_
        rw [← List.append_assoc]
        exact List.Perm.append_right _ (interleave_perm gm rm P preds (.dcons n c r) p d)

/-! Sync-walker characterization. -/

theorem processEntries_append (gm : List String → String → Bool)
    (rm : String → String → Bool) (P : PatternsC) (rootOpt : Option String)
    (preds : Option (MetaM → Bool)) :
    ∀ xs ys, processEntries gm rm P rootOpt preds (xs ++ ys) =
      (match processEntries gm rm P rootOpt preds xs with
       | .error e => .error e
       | .ok l1 =>
         match processEntries gm rm P rootOpt preds ys with
         | .error e => .error e
         | .ok l2 => .ok (l1 ++ l2)) := by
  intro xs ys
  induction xs with
  | nil =>
    simp only [List.nil_append, processEntries]
    cases processEntries gm rm P rootOpt preds ys <;> rfl
  | cons x rest ih =>
    obtain ⟨p, t⟩ := x
    by_cases hal : pathAllowed p rootOpt
    · cases t with
      | file m =>
        by_cases hmt : patterns_is_match gm rm P p
        · cases preds with
          | none =>
            simp only [List.cons_append, processEntries, hal, hmt, Bool.not_true,
              Bool.false_eq_true, if_false, List.append_eq]
            rw [ih]
            cases h1 : processEntries gm rm P rootOpt none rest with
            | error e1 => rfl
            | ok l1 =>
              cases h2 : processEntries gm rm P rootOpt none ys with
              | error e2 => rfl
              | ok l2 => simp
          | some pd =>
            by_cases hro : m.readonly
            · simp only [List.cons_append, processEntries, hal, hmt, hro, Bool.not_true,
                Bool.false_eq_true, if_false, if_true]
            · by_cases hpd : pd m
              · simp only [List.cons_append, processEntries, hal, hmt, hro, hpd,
                  Bool.not_true, Bool.false_eq_true, if_false, if_true, List.append_eq]
                rw [ih]
                cases h1 : processEntries gm rm P rootOpt (some pd) rest with
                | error e1 => rfl
                | ok l1 =>
                  cases h2 : processEntries gm rm P rootOpt (some pd) ys with
                  | error e2 => rfl
                  | ok l2 => simp
              · simp only [List.cons_append, processEntries, hal, hmt, hro, hpd,
                  Bool.not_true, Bool.false_eq_true, if_false, if_true]
                exact ih
        · have hmt' : patterns_is_match gm rm P p = false := by simpa using hmt
          simp only [List.cons_append, processEntries, hal, hmt', Bool.not_false,
            Bool.false_eq_true, if_false, if_true]
          exact ih
      | dnil =>
        simp only [List.cons_append, processEntries, hal, Bool.not_true,
          Bool.false_eq_true, if_false]
        exact ih
      | dcons n c r =>
        simp only [List.cons_append, processEntries, hal, Bool.not_true,
          Bool.false_eq_true, if_false]
        exact ih
    · have hal' : pathAllowed p rootOpt = false := by simpa using hal
      simp only [List.cons_append, processEntries, hal', Bool.not_false, if_true]
      exact ih

theorem processEntries_single_file (gm : List String → String → Bool)
    (rm : String → String → Bool) (P : PatternsC) (preds : Option (MetaM → Bool))
    (p : String) (m : MetaM) (hro : m.readonly = false) :
    processEntries gm rm P none preds [(p, .file m)] =
      .ok (if patterns_is_match gm rm P p && predPass preds m then [p] else []) := by
  by_cases hmt : patterns_is_match gm rm P p
  · cases preds with
    | none => simp [processEntries, pathAllowed, hmt, predPass]
    | some pd =>
      by_cases hpd : pd m
      · simp [processEntries, pathAllowed, hmt, hro, hpd, predPass]
      · simp [processEntries, pathAllowed, hmt, hro, hpd, predPass]
  · cases preds with
    | none => simp [processEntries, pathAllowed, hmt, predPass]
    | some pd => simp [processEntries, pathAllowed, hmt, predPass]

/-- With no depth limit, no `root_dir` restriction and no read-only
files, the sync walker's per-entry loop over a directory's subtree
collects exactly the canonical matching-file list. -/
theorem processEntries_walkKids (gm : List String → String → Bool)
    (rm : String → String → Bool) (P : PatternsC) (preds : Option (MetaM → Bool)) :
    ∀ (t : FsT) (p : String) (depth : Nat), t.noRO = true →
      processEntries gm rm P none preds (walkKids none p depth t) =
        .ok (collectKids gm rm P preds p t) := by
  intro t
  induction t with
  | file m => intro p depth _; rfl
  | dnil => intro p depth _; rfl
  | dcons n c r ihc ihr =>
    intro p depth hro
    have hro2 : c.noRO = true ∧ r.noRO = true := by
      simpa [FsT.noRO, Bool.and_eq_true] using hro
    have hdl : depthLE (depth + 1) none = true := rfl
    cases c with
    | file m =>
      have hmro : m.readonly = false := by
        have := hro2.1
        simpa [FsT.noRO] using this
      rw [show walkKids none p depth (.dcons n (.file m) r) =
          [(p ++ "/" ++ n, FsT.file m)] ++ walkKids none p depth r from by
        simp [walkKids, hdl]]
      rw [processEntries_append]
      rw [processEntries_single_file gm rm P preds _ m hmro]
      rw [ihr p depth hro2.2]
      simp [collectKids]
    | dnil =>
      rw [show walkKids none p depth (.dcons n .dnil r) =
          ((p ++ "/" ++ n, FsT.dnil) :: walkKids none (p ++ "/" ++ n) (depth + 1) .dnil) ++
            walkKids none p depth r from by
        simp [walkKids, hdl]]
      rw [processEntries_append]
      rw [show processEntries gm rm P none preds
          ((p ++ "/" ++ n, FsT.dnil) :: walkKids none (p ++ "/" ++ n) (depth + 1) .dnil) =
          processEntries gm rm P none preds
            (walkKids none (p ++ "/" ++ n) (depth + 1) .dnil) from by
        simp [processEntries, pathAllowed]]
      rw [ihc (p ++ "/" ++ n) (depth + 1) hro2.1]
      rw [ihr p depth hro2.2]
      simp [collectKids]
    | dcons n2 c2 r2 =>
      rw [show walkKids none p depth (.dcons n (.dcons n2 c2 r2) r) =
          ((p ++ "/" ++ n, FsT.dcons n2 c2 r2) ::
            walkKids none (p ++ "/" ++ n) (depth + 1) (.dcons n2 c2 r2)) ++
            walkKids none p depth r from by
        simp [walkKids, hdl]]
      rw [processEntries_append]
      rw [show processEntries gm rm P none preds
          ((p ++ "/" ++ n, FsT.dcons n2 c2 r2) ::
            walkKids none (p ++ "/" ++ n) (depth + 1) (.dcons n2 c2 r2)) =
          processEntries gm rm P none preds
            (walkKids none (p ++ "/" ++ n) (depth + 1) (.dcons n2 c2 r2)) from by
        simp [processEntries, pathAllowed]]
      rw [ihc (p ++ "/" ++ n) (depth + 1) hro2.1]
      rw [ihr p depth hro2.2]
      simp [collectKids]

/-- `glob_sync` with default `root_dir`, no depth limit and no read-only
files returns exactly the canonical matching-file list of the root tree. -/
theorem glob_sync_char (gm : List String → String → Bool) (rm : String → String → Bool)
    (fs : Fsys) (P : PatternsC) (opts : GlobOptionsM) (preds : Option (MetaM → Bool))
    (t : FsT) (hrd : opts.root_dir = none) (hmd : opts.max_depth = none)
    (hfs : lookupFs fs "." = some t) (hdir : t.isDirNode = true) (hro : t.noRO = true) :
    glob_sync gm rm fs P opts preds = .ok (collectKids gm rm P preds "." t) := by
  unfold glob_sync
  rw [hrd, hmd]
  simp only [Option.getD_none]
  rw [hfs]
  dsimp only
  cases t with
  | file m => simp [FsT.isDirNode] at hdir
  | dnil =>
    rw [show processEntries gm rm P none preds
        ((".", FsT.dnil) :: walkKids none "." 0 .dnil) =
        processEntries gm rm P none preds (walkKids none "." 0 .dnil) from by
      simp [processEntries, pathAllowed]]
    exact processEntries_walkKids gm rm P preds .dnil "." 0 hro
  | dcons n c r =>
    rw [show processEntries gm rm P none preds
        ((".", FsT.dcons n c r) :: walkKids none "." 0 (.dcons n c r)) =
        processEntries gm rm P none preds (walkKids none "." 0 (.dcons n c r)) from by
      simp [processEntries, pathAllowed]]
    exact processEntries_walkKids gm rm P preds (.dcons n c r) "." 0 hro

/-! Depth-zero characterizations (claim C4). -/

/-- With `max_depth = 0` the sync walker yields no entry below the root. -/
theorem walkKids_depth_zero : ∀ (t : FsT) (p : String), walkKids (some 0) p 0 t = [] := by
  intro t
  induction t with
  | file m => intro p; rfl
  | dnil => intro p; rfl
  | dcons n c r ihc ihr =>
    intro p
    have hdl : depthLE (0 + 1) (some 0) = false := rfl
    cases c with
    | file m => rw [walkKids] <;> simp [hdl, ihr]
    | dnil => rw [walkKids] <;> simp [hdl, ihr]
    | dcons n2 c2 r2 => rw [walkKids] <;> simp [hdl, ihr]

/-- With `max_depth = 0` the streaming walker pushes no directory frame. -/
theorem dirFramesOf_depth_zero : ∀ (t : FsT) (p : String),
    dirFramesOf (some 0) p 0 t = [] := by
  intro t
  induction t with
  | file m => intro p; rfl
  | dnil => intro p; rfl
  | dcons n c r ihc ihr =>
    intro p
    have hp : pushOK 0 (some 0) = false := rfl
    cases c with
    | file m => simp [dirFramesOf, ihr]
    | dnil => simp [dirFramesOf, hp, ihr]
    | dcons n2 c2 r2 => simp [dirFramesOf, hp, ihr]

/-- With `max_depth = 0` the streaming walker emits exactly the matching
files directly in the root directory. -/
theorem glob_stream_depth_zero (gm : List String → String → Bool)
    (rm : String → String → Bool) (fs : Fsys) (P : PatternsC) (opts : GlobOptionsM)
    (preds : Option (MetaM → Bool)) (t : FsT) (hrd : opts.root_dir = none)
    (hmd : opts.max_depth = some 0) (hfs : lookupFs fs "." = some t)
    (hdir : t.isDirNode = true) (hro : t.noRO = true) :
    okPaths (glob_stream gm rm fs P opts preds) =
      collectRootFiles gm rm P preds "." t := by
  unfold glob_stream
  rw [hrd, hmd]
  simp only [Option.getD_none]
  rw [hfs]
  dsimp only
  cases t with
  | file m => simp [FsT.isDirNode] at hdir
  | dnil => rfl
  | dcons n c r =>
    obtain ⟨g, hg⟩ : ∃ g, (FsT.dcons n c r).size = g + 1 :=
      ⟨(FsT.dcons n c r).size - 1, by have := FsT.size_pos (FsT.dcons n c r); omega⟩
    rw [hg]
    rw [show streamLoop gm rm P none preds (some 0) (g + 1) [(".", 0, FsT.dcons n c r)] =
        (streamKids gm rm P none preds (some 0) "." 0 (.dcons n c r) []).1 ++
          streamLoop gm rm P none preds (some 0) g
            (streamKids gm rm P none preds (some 0) "." 0 (.dcons n c r) []).2 from rfl]
    rw [streamKids_char gm rm P preds (some 0) (.dcons n c r) "." 0 []]
    rw [dirFramesOf_depth_zero (.dcons n c r) "."]
    simp only [List.reverse_nil, List.nil_append, List.append_nil]
    rw [show streamLoop gm rm P none preds (some 0) g [] = [] from by cases g <;> rfl]
    rw [List.append_nil]
    exact okPaths_fileItemsOf gm rm P preds (.dcons n c r) "." hro

/-! ## Concrete fixtures used by the claim theorems -/

/-- Glob-set oracle that matches everything. -/
def gmAll : List String → String → Bool := fun _ _ => true

/-- Regex oracle that matches nothing. -/
def rmNone : String → String → Bool := fun _ _ => false

/-- Metadata of an ordinary writable file. -/
def m0 : MetaM := { readonly := false }

/-- Multi-root fixture: the working directory holds `x.txt`, roots `r1`
and `r2` hold `a.txt` and `b.txt`. -/
def fsC : Fsys :=
  [(".", .dcons "x.txt" (.file m0) .dnil),
   ("r1", .dcons "a.txt" (.file m0) .dnil),
   ("r2", .dcons "b.txt" (.file m0) .dnil)]

/-- Root tree with one file and one subdirectory holding another file. -/
def tD : FsT := .dcons "a.txt" (.file m0) (.dcons "sub" (.dcons "b.txt" (.file m0) .dnil) .dnil)

/-- Filesystem for the depth-limit counterexamples. -/
def fsD : Fsys := [(".", tD)]

/-- Root tree with a single file. -/
def tE : FsT := .dcons "a.txt" (.file m0) .dnil

/-- Filesystem whose root holds exactly one file. -/
def fsE : Fsys := [(".", tE)]

/-- A compiled pattern set with one glob pattern. -/
def P1 : PatternsC := { set := ["*"], regexes := [] }

/-- Options with `max_depth = 0`, everything else default. -/
def opts0 : GlobOptionsM := { max_depth := some 0 }

/-- `"{a,b}"` repeated eleven times: its unrestricted cross-product has
2048 elements, and the eleventh suffix group drives the recursion depth
past `MAX_DEPTH`. -/
def elevenX : String :=
  "\x7ba,b\x7d\x7ba,b\x7d\x7ba,b\x7d\x7ba,b\x7d\x7ba,b\x7d\x7ba,b\x7d\x7ba,b\x7d\x7ba,b\x7d\x7ba,b\x7d\x7ba,b\x7d\x7ba,b\x7d"

/-! ## Claim theorems -/

/-- C1 (divergence witness): the synchronous facade ignores its `roots`
argument.  On a filesystem where `.`, `r1` and `r2` hold different
files, `PatternHunt::sync` with roots `[r1, r2]` returns the traversal
of `.` twice, while the traversal specified for the facade (each root in
order, concatenated) returns the files of `r1` and `r2`. -/
theorem c1_facade_ignores_roots :
    patternhunt_sync gmAll rmNone fsC ["*"] ["r1", "r2"] {} =
      .ok ["./x.txt", "./x.txt"] ∧
    patternhunt_sync_spec gmAll rmNone fsC ["*"] ["r1", "r2"] {} =
      .ok ["r1/a.txt", "r2/b.txt"] ∧
    (["./x.txt", "./x.txt"] : List String) ≠ ["r1/a.txt", "r2/b.txt"] := by
  refine ⟨by decide, by decide, by decide⟩

/-- C2 counterexample: the translator does not map `?(a|b)` to the
claimed `^(?:a|b)?$`; it emits `^.(a|b)$`. -/
theorem c2_extglob_counterexample :
    micromatch_to_regex "?(a|b)" = .ok "^.(a|b)$" ∧
    (Except.ok "^.(a|b)$" : Except GlobError String) ≠ .ok "^(?:a|b)?$" := by
  refine ⟨by decide, by decide⟩

/-- C2 (amended): `?(`, `*(` and `+(` are not recognized as extglob
operators — the operator is translated independently (`?` → `.`,
`*` → `.*`, `+` → `.+`) and `(A|B)` is emitted as a plain regex group
with each alternative's characters escaped individually; only `@(A|B)`
follows the claimed `(?:A|B)` shape.  All outputs are anchored `^...$`. -/
theorem c2_extglob_actual :
    micromatch_to_regex "?(a|b)" = .ok "^.(a|b)$" ∧
    micromatch_to_regex "*(a|b)" = .ok "^.*(a|b)$" ∧
    micromatch_to_regex "+(a|b)" = .ok "^.+(a|b)$" ∧
    micromatch_to_regex "@(a|b)" = .ok "^(?:a|b)$" ∧
    micromatch_to_regex "?(a.c|b)" = .ok "^.(a\\.c|b)$" := by
  refine ⟨by decide, by decide, by decide, by decide, by decide⟩

/-- C3 counterexample: with `max_depth = 0` on a root containing
`a.txt`, the synchronous walker returns no path while the streaming
walker emits `./a.txt`, so the two walkers do not return the same set
for the same inputs. -/
theorem c3_walkers_differ_at_depth_zero :
    glob_sync gmAll rmNone fsD P1 opts0 none = .ok [] ∧
    "./a.txt" ∈ okPaths (glob_stream gmAll rmNone fsD P1 opts0 none) := by
  refine ⟨by decide, by decide⟩

/-- C3 (amended): with no `max_depth`, default `root_dir`, a readable
directory root and no read-only files, the synchronous and streaming
walkers emit the same set of paths (ignoring order). -/
theorem c3_walkers_same_set_without_depth_limit (gm : List String → String → Bool)
    (rm : String → String → Bool) (fs : Fsys) (P : PatternsC) (opts : GlobOptionsM)
    (preds : Option (MetaM → Bool)) (t : FsT) (hrd : opts.root_dir = none)
    (hmd : opts.max_depth = none) (hfs : lookupFs fs "." = some t)
    (hdir : t.isDirNode = true) (hro : t.noRO = true) :
    ∃ l, glob_sync gm rm fs P opts preds = .ok l ∧
      ∀ p, p ∈ l ↔ p ∈ okPaths (glob_stream gm rm fs P opts preds) := by
  refine ⟨collectKids gm rm P preds "." t,
    glob_sync_char gm rm fs P opts preds t hrd hmd hfs hdir hro, ?_⟩
  have hperm : (okPaths (glob_stream gm rm fs P opts preds)).Perm
      (collectKids gm rm P preds "." t) := by
    unfold glob_stream
    rw [hrd, hmd]
    simp only [Option.getD_none]
    rw [hfs]
    dsimp only
    have hnro : stackNoRO [(".", 0, t)] := by
      intro fr hfr
      rw [List.mem_singleton.1 hfr]
      exact hro
    have h := streamLoop_perm gm rm P preds t.size [(".", 0, t)]
      (by simp [stackMeasure]) hnro
    refine h.trans ?_
    rw [flatColl_cons]
    simp [flatColl]
  intro p
  exact hperm.mem_iff.symm

/-- C3 witness: the amended equivalence at a concrete two-level tree. -/
theorem c3_walkers_same_set_witness :
    ∃ l, glob_sync gmAll rmNone fsD P1 {} none = .ok l ∧
      ∀ p, p ∈ l ↔ p ∈ okPaths (glob_stream gmAll rmNone fsD P1 {} none) :=
  c3_walkers_same_set_without_depth_limit gmAll rmNone fsD P1 {} none tD rfl rfl
    (by decide) (by decide) (by decide)

/-- C4 counterexample: with `max_depth = 0` and `a.txt` directly in the
root, the synchronous walker emits nothing (walkdir yields only the root
itself, a directory, which is skipped), while the streaming walker does
emit `./a.txt` — so the claim fails for the synchronous walker. -/
theorem c4_sync_depth_zero_counterexample :
    glob_sync gmAll rmNone fsE P1 opts0 none = .ok [] ∧
    "./a.txt" ∈ okPaths (glob_stream gmAll rmNone fsE P1 opts0 none) := by
  refine ⟨by decide, by decide⟩

/-- C4 (amended): with `max_depth = 0` (default `root_dir`, readable
directory root, no read-only files) the streaming walker emits exactly
the matching entries directly in the root and never descends, while the
synchronous walker emits nothing at all — its walkdir traversal yields
only the root directory entry itself. -/
theorem c4_depth_zero_behaviour (gm : List String → String → Bool)
    (rm : String → String → Bool) (fs : Fsys) (P : PatternsC) (opts : GlobOptionsM)
    (preds : Option (MetaM → Bool)) (t : FsT) (hrd : opts.root_dir = none)
    (hmd : opts.max_depth = some 0) (hfs : lookupFs fs "." = some t)
    (hdir : t.isDirNode = true) (hro : t.noRO = true) :
    glob_sync gm rm fs P opts preds = .ok [] ∧
    okPaths (glob_stream gm rm fs P opts preds) =
      collectRootFiles gm rm P preds "." t := by
  constructor
  · unfold glob_sync
    rw [hrd, hmd]
    simp only [Option.getD_none]
    rw [hfs]
    dsimp only
    rw [walkKids_depth_zero t "."]
    cases t with
    | file m => simp [FsT.isDirNode] at hdir
    | dnil => rfl
    | dcons n c r => rfl
  · exact glob_stream_depth_zero gm rm fs P opts preds t hrd hmd hfs hdir hro

/-- C4 witness: the amended behaviour at a concrete root with one file. -/
theorem c4_depth_zero_witness :
    glob_sync gmAll rmNone fsE P1 opts0 none = .ok [] ∧
    okPaths (glob_stream gmAll rmNone fsE P1 opts0 none) =
      collectRootFiles gmAll rmNone P1 none "." tE :=
  c4_depth_zero_behaviour gmAll rmNone fsE P1 opts0 none tE rfl rfl
    (by decide) (by decide) (by decide)

/-- C5 counterexample: a trailing empty alternative is dropped —
`a{b,}c` expands to `["abc"]` only, not to `["abc", "ac"]`. -/
theorem c5_trailing_empty_counterexample :
    expand "a\x7bb,\x7dc" = .ok ["abc"] ∧
    "ac" ∉ (["abc"] : List String) := by
  refine ⟨by decide, by decide⟩

/-- C5 (amended): empty alternatives are preserved as empty strings
except in the final position before the closing brace, where the
trailing empty alternative is dropped: `a{,b}c` keeps its leading empty
alternative, `{,a,,b,}` keeps the leading and middle ones, but `a{b,}c`
loses its trailing one. -/
theorem c5_empty_alternatives :
    expand "a\x7b,b\x7dc" = .ok ["ac", "abc"] ∧
    expand "\x7b,a,,b,\x7d" = .ok ["", "a", "", "b"] ∧
    expand "a\x7bb,\x7dc" = .ok ["abc"] := by
  refine ⟨by decide, by decide, by decide⟩

/-- C6: `is_match` is true exactly when the glob-set is non-empty and
matches, or some regex matches; and a `Patterns` compiled from an empty
pattern list has an empty glob-set and no regexes, hence matches no
path. -/
theorem c6_is_match_semantics :
    (∀ (gm : List String → String → Bool) (rm : String → String → Bool) (P : PatternsC)
        (path : String),
      patterns_is_match gm rm P path = true ↔
        ((P.set ≠ [] ∧ gm P.set path = true) ∨ ∃ r ∈ P.regexes, rm r path = true)) ∧
    (∀ opts : GlobOptionsM, compile_many [] opts = .ok { set := [], regexes := [] }) ∧
    (∀ (gm : List String → String → Bool) (rm : String → String → Bool) (path : String),
      patterns_is_match gm rm { set := [], regexes := [] } path = false) := by
  refine ⟨?_, fun _ => rfl, fun _ _ _ => rfl⟩
  intro gm rm P path
  unfold patterns_is_match
  simp only [Bool.or_eq_true, Bool.and_eq_true, Bool.not_eq_true', List.any_eq_true]
  constructor
  · rintro (⟨h1, h2⟩ | ⟨r, hr, hrm⟩)
    · exact Or.inl ⟨by simpa using h1, h2⟩
    · exact Or.inr ⟨r, hr, hrm⟩
  · rintro (⟨h1, h2⟩ | ⟨r, hr, hrm⟩)
    · exact Or.inl ⟨by simpa using h1, h2⟩
    · exact Or.inr ⟨r, hr, hrm⟩

set_option maxRecDepth 20000 in
/-- C7 counterexample: for `elevenX` the unrestricted cross-product has
2048 > 1000 elements, yet `expand` fails with `BraceExpansionDepth`, not
`BraceExpansionCount` — the depth cap triggers first. -/
theorem c7_depth_preempts_count :
    1000 < freeCount elevenX ∧
    expand elevenX = .error .braceExpansionDepth := by
  refine ⟨by decide, by decide⟩

/-- C7 (amended): whenever brace expansion returns successfully, the
output list has at most 1000 elements.  (The cap is enforced by failing
with `BraceExpansionCount` at the 1001st accumulated result, but when
the cross-product would exceed the cap the call is not guaranteed to
fail with that kind: the depth limit can fail first, as the
counterexample shows.) -/
theorem c7_output_cap (input : String) (l : List String)
    (h : expand input = .ok l) : l.length ≤ 1000 :=
  brGo_bound 1000000 (.inner input 0) trivial l h

/-- C7 witness: the cap theorem applied to a concrete expansion. -/
theorem c7_output_cap_witness : (["abd", "acd"] : List String).length ≤ 1000 :=
  c7_output_cap "a\x7bb,c\x7dd" ["abd", "acd"] (by decide)

/-- C8: when `stat` takes the fresh-query path (no unexpired cache
entry, not rejected by the symlink policy) and the filesystem reports
the read-only bit, the call fails with `PermissionDenied` and no entry
for the path remains in (or is added to) the metadata cache. -/
theorem c8_stat_readonly (follow : Bool) (fsMeta : String → Option MetaM)
    (isLink : String → Bool) (now : Nat) (cache : List (String × MetaM × Nat))
    (path : String) (m : MetaM)
    (h1 : ∀ m0 e, cFind cache path = some (m0, e) → e ≤ now)
    (h2 : follow = true ∨ isLink path = false)
    (h3 : fsMeta path = some m) (h4 : m.readonly = true) :
    (batch_stat follow fsMeta isLink now cache path).1 = .error .permissionDenied ∧
    cFind (batch_stat follow fsMeta isLink now cache path).2 path = none := by
  have hsf : ∀ c : List (String × MetaM × Nat),
      statFresh follow fsMeta isLink now c path = (.error .permissionDenied, c) := by
    intro c
    unfold statFresh
    have hlink : (!follow && isLink path) = false := by
      rcases h2 with h | h
      · simp [h]
      · simp [h]
    rw [hlink]
    simp only [Bool.false_eq_true, if_false, h3, h4, if_true]
  unfold batch_stat
  cases hf : cFind cache path with
  | none =>
    rw [hsf cache]
    exact ⟨rfl, hf⟩
  | some me =>
    obtain ⟨m0, e⟩ := me
    have he : e ≤ now := h1 m0 e hf
    dsimp only
    rw [if_neg (by omega)]
    rw [hsf (cRemove cache path)]
    exact ⟨rfl, cFind_cRemove_none cache path⟩

/-- C8 witness: a fresh stat of a read-only file on an empty cache. -/
theorem c8_stat_readonly_witness :
    (batch_stat false (fun _ => some { readonly := true }) (fun _ => false) 0 [] "p").1 =
      .error .permissionDenied ∧
    cFind (batch_stat false (fun _ => some { readonly := true })
      (fun _ => false) 0 [] "p").2 "p" = none :=
  c8_stat_readonly false (fun _ => some { readonly := true }) (fun _ => false) 0 [] "p"
    { readonly := true } (fun m0 e h => by simp [cFind] at h) (Or.inr rfl) rfl rfl

/-- C9: starting from a fresh compilation cache (glob-set or regex —
both instantiate the same parametric state), after any sequence of
operations the hit counter plus the miss counter equals the number of
lookups performed: every `get` bumps exactly one of the two. -/
theorem c9_cache_hits_misses (α : Type) (ops : List (CacheOp α)) :
    (runOps (cacheInit α) ops).metrics.hits + (runOps (cacheInit α) ops).metrics.misses =
      countGets ops := by
  have h := runOps_counts ops (cacheInit α)
  simpa [cacheInit] using h

/-- C10: the `PathTraversal` rejection inspects only the raw trimmed
pattern text before brace expansion.  `a{/..,b}/c` contains neither
`**/..` nor `/../`, so `compile_many` accepts it — even though its brace
expansion produces the alternative `a/../c`, which does contain `/../`
and is compiled into the glob-set. -/
theorem c10_traversal_check_before_expansion :
    strContains "a\x7b/..,b\x7d/c" "**/.." = false ∧
    strContains "a\x7b/..,b\x7d/c" "/../" = false ∧
    expand "a\x7b/..,b\x7d/c" = .ok ["a/../c", "ab/c"] ∧
    strContains "a/../c" "/../" = true ∧
    compile_many ["a\x7b/..,b\x7d/c"] {} =
      .ok { set := ["a/../c", "ab/c"], regexes := [] } := by
  refine ⟨by decide, by decide, by decide, by decide, by decide⟩
